import Mathlib

/-!
Shallow embedding of the hwlib drawable rasterizers
(`hwlib-graphics-drawables.hpp`): the Bresenham `line::draw` and the
midpoint-circle `circle::draw` are modelled as pure functions producing the
ordered list of pixel writes `(coordinate, color)` that the C++ code emits
on the supplied `window` sink.  Machine integers (`int_fast16_t`,
`uint_fast16_t`) are modelled as `Int`/`Nat`; per the spec's numeric
semantics (§4.3) all quantities fit the integer type without overflow, so
no wraparound is modelled.
-/

set_option linter.unusedVariables false

namespace hwlib

/-- Modelled from the spec: the color collaborator is not part of the core
sources; per §6 it is "an opaque value type with a distinguished
transparent sentinel and equality comparison".  We model it as an opaque
identity with decidable equality; `transparent` is the sentinel and
`black`, `white` are two distinct ordinary colors. -/
structure color where
  ident : Nat
deriving DecidableEq, Repr

/-- Modelled from the spec: the distinguished transparent sentinel color. -/
def transparent : color := ⟨0⟩

/-- Modelled from the spec: an ordinary (non-transparent) color, the
default foreground of the source constructors. -/
def black : color := ⟨1⟩

/-- Modelled from the spec: a second ordinary color, distinct from `black`
and from `transparent`, used as a concrete fill color. -/
def white : color := ⟨2⟩

/-- Modelled from the spec: the coordinate collaborator `xy` is not part of
the core sources; per §6 it is a pair of signed integers `x`, `y`
supporting componentwise `+` and `-`. -/
structure xy where
  x : Int
  y : Int
deriving DecidableEq, Repr

instance : Add xy := ⟨fun a b => ⟨a.x + b.x, a.y + b.y⟩⟩

instance : Sub xy := ⟨fun a b => ⟨a.x - b.x, a.y - b.y⟩⟩

theorem xy_add_mk (a : xy) (u v : Int) : a + ⟨u, v⟩ = ⟨a.x + u, a.y + v⟩ := rfl

theorem xy_sub_mk (a : xy) (u v : Int) : a - ⟨u, v⟩ = ⟨a.x - u, a.y - v⟩ := rfl

theorem xy_add_right_inj (c u v : xy) : c + u = c + v ↔ u = v := by
  constructor
  · intro h
    cases u; cases v; cases c
    simp only [xy_add_mk, xy.mk.injEq] at h ⊢
    omega
  · intro h; rw [h]

/-- `line::abs`: `return x >= 0 ? x : -x;`. -/
def iabs (x : Int) : Int := if 0 ≤ x then x else -x

theorem iabs_eq_natAbs (x : Int) : iabs x = (x.natAbs : Int) := by
  unfold iabs; split <;> omega

/-- The stepping loop of `line::draw`:
`for( x = x0; x != x1; x += xstep ){ write; update E, y }`.
The `Nat` argument is fuel bounding the iteration count; `lineSetup`
passes the exact count `|x1 - x0|` of the source loop, which moves `x` by
`xstep = ±1` toward `x1` and stops when `x = x1` (the guard is kept, so
the embedding agrees with the source for any sufficient fuel). -/
def lineLoop (steep : Bool) (xstep ystep TwoDy TwoDyTwoDx x1 : Int) (fg : color) :
    Nat → Int → Int → Int → List (xy × color)
  | 0, _, _, _ => []
  | n + 1, x, y, E =>
    if x = x1 then []
    else
      ((if steep then (⟨y, x⟩ : xy) else ⟨x, y⟩), fg) ::
        (if 0 < E then
          lineLoop steep xstep ystep TwoDy TwoDyTwoDx x1 fg n (x + xstep) (y + ystep)
            (E + TwoDyTwoDx)
        else
          lineLoop steep xstep ystep TwoDy TwoDyTwoDx x1 fg n (x + xstep) y (E + TwoDy))

/-- `line::draw` after the steep swap: recompute `Dx`, `Dy`, normalize the
step directions and absolute deltas, initialize `E = 2*Dy - Dx`, and run
the stepping loop from `(x0, y0)`. -/
def lineSetup (steep : Bool) (x0 y0 x1 y1 : Int) (fg : color) : List (xy × color) :=
  let Dx := x1 - x0
  let Dy := y1 - y0
  let xstep : Int := if Dx < 0 then -1 else 1
  let Dxa : Int := if Dx < 0 then -Dx else Dx
  let ystep : Int := if Dy < 0 then -1 else 1
  let Dya : Int := if Dy < 0 then -Dy else Dy
  lineLoop steep xstep ystep (2 * Dya) (2 * Dya - 2 * Dxa) x1 fg Dxa.toNat x0 y0
    (2 * Dya - Dxa)

/-- `line::draw`: the steep test `abs(Dy) >= abs(Dx)`; when steep the roles
of the x and y coordinates are swapped for the whole walk (`swap(x0,y0);
swap(x1,y1)` and the write emits `xy(y, x)`). -/
def lineWrites (p q : xy) (fg : color) : List (xy × color) :=
  if iabs (q.y - p.y) ≥ iabs (q.x - p.x) then
    lineSetup true p.y p.x q.y q.x fg
  else
    lineSetup false p.x p.y q.x q.y fg

/-- One iteration's writes in `circle::draw`'s octant loop, after `x` and
`y` have been stepped: the eight symmetric outline points in source order,
then, when the fill color is not the transparent sentinel, the four chord
lines drawn through transient `line` objects (in source order). -/
def circleStep (c : xy) (fg bg : color) (x y : Int) : List (xy × color) :=
  [(c + ⟨x, y⟩, fg), (c + ⟨-x, y⟩, fg), (c + ⟨x, -y⟩, fg), (c + ⟨-x, -y⟩, fg),
   (c + ⟨y, x⟩, fg), (c + ⟨-y, x⟩, fg), (c + ⟨y, -x⟩, fg), (c + ⟨-y, -x⟩, fg)]
  ++ (if bg ≠ transparent then
        lineWrites (c + ⟨-x, y⟩) (c + ⟨x, y⟩) bg
          ++ lineWrites (c + ⟨-x, -y⟩) (c + ⟨x, -y⟩) bg
          ++ lineWrites (c + ⟨-y, x⟩) (c + ⟨y, x⟩) bg
          ++ lineWrites (c + ⟨-y, -x⟩) (c + ⟨y, -x⟩) bg
      else [])

/-- `circle::draw`'s octant loop `while( x < y )`.  Each iteration first
updates the decision variables exactly as the source (`if (fx >= 0) { y--;
ddFy += 2; fx += ddFy; } x++; ddFx += 2; fx += ddFx;`), then emits that
iteration's writes.  The `Nat` argument is fuel: `y - x` shrinks by at
least one per iteration, so the initial gap `radius` passed by
`circleWrites` bounds the iteration count; the `x < y` guard is kept, so
the embedding agrees with the source for any sufficient fuel. -/
def circleLoop (c : xy) (fg bg : color) :
    Nat → Int → Int → Int → Int → Int → List (xy × color)
  | 0, _, _, _, _, _ => []
  | n + 1, x, y, fx, ddFx, ddFy =>
    if x < y then
      if 0 ≤ fx then
        circleStep c fg bg (x + 1) (y - 1)
          ++ circleLoop c fg bg n (x + 1) (y - 1) (fx + (ddFy + 2) + (ddFx + 2))
              (ddFx + 2) (ddFy + 2)
      else
        circleStep c fg bg (x + 1) y
          ++ circleLoop c fg bg n (x + 1) y (fx + (ddFx + 2)) (ddFx + 2) ddFy
    else []

/-- `circle::draw`: the radius-0 guard (`if (radius < 1) return;` — a
normal, silent no-op, no error path), the four axis-extreme points, the
fill prologue (`if (bg != transparent)`: the two vertical axis points
again and the horizontal diameter drawn via a transient `line`, both in
the foreground color `fg`, exactly as the source), then the octant loop
started at `fx = 1 - radius`, `ddFx = 1`, `ddFy = -2*radius`, `x = 0`,
`y = radius`. -/
def circleWrites (c : xy) (radius : Nat) (fg bg : color) : List (xy × color) :=
  if radius < 1 then []
  else
    [(c + ⟨0, (radius : Int)⟩, fg), (c + ⟨0, -(radius : Int)⟩, fg),
     (c + ⟨(radius : Int), 0⟩, fg), (c + ⟨-(radius : Int), 0⟩, fg)]
      ++ (if bg ≠ transparent then
            [(c + ⟨0, (radius : Int)⟩, fg), (c + ⟨0, -(radius : Int)⟩, fg)]
              ++ lineWrites (c - ⟨(radius : Int), 0⟩) (c + ⟨(radius : Int), 0⟩) fg
          else [])
      ++ circleLoop c fg bg radius 0 (radius : Int) (1 - (radius : Int)) 1
          (-2 * (radius : Int))

/-- The pixel coordinates of a write list, in write order. -/
def pix (l : List (xy × color)) : List xy := l.map Prod.fst

theorem mem_pix {p : xy} {l : List (xy × color)} :
    p ∈ pix l ↔ ∃ col, (p, col) ∈ l := by
  unfold pix
  constructor
  · intro h
    obtain ⟨⟨p', col⟩, hmem, rfl⟩ := List.mem_map.mp h
    exact ⟨col, hmem⟩
  · rintro ⟨col, h⟩
    exact List.mem_map.mpr ⟨(p, col), h, rfl⟩

/-! ### The stepping loop: write counts -/

theorem lineLoop_length (steep : Bool) (xstep ystep TwoDy TwoDyTwoDx : Int) (fg : color)
    (hstep : xstep = 1 ∨ xstep = -1) :
    ∀ (n : Nat) (x1 x y E : Int), x1 = x + n * xstep →
      (lineLoop steep xstep ystep TwoDy TwoDyTwoDx x1 fg n x y E).length = n := by
  intro n
  induction n with
  | zero => intro x1 x y E h; rfl
  | succ n ih =>
    intro x1 x y E h
    have hne : x ≠ x1 := by rcases hstep with h1 | h1 <;> subst h1 <;> omega
    have h' : x1 = (x + xstep) + n * xstep := by
      push_cast at h ⊢; linear_combination h
    simp only [lineLoop]
    rw [if_neg hne]
    simp only [List.length_cons]
    split <;> rw [ih _ _ _ _ h']

theorem lineSetup_length (steep : Bool) (x0 y0 x1 y1 : Int) (fg : color) :
    (lineSetup steep x0 y0 x1 y1 fg).length = (x1 - x0).natAbs := by
  unfold lineSetup
  simp only
  by_cases h : x1 - x0 < 0
  · simp only [if_pos h]
    have hn : (x1 - x0).natAbs = (-(x1 - x0)).toNat := by omega
    rw [hn]
    exact lineLoop_length steep (-1) _ _ _ fg (Or.inr rfl) _ x1 x0 y0 _ (by omega)
  · simp only [if_neg h]
    have hn : (x1 - x0).natAbs = (x1 - x0).toNat := by omega
    rw [hn]
    exact lineLoop_length steep 1 _ _ _ fg (Or.inl rfl) _ x1 x0 y0 _ (by omega)

theorem lineWrites_length (p q : xy) (fg : color) :
    (lineWrites p q fg).length = max (q.x - p.x).natAbs (q.y - p.y).natAbs := by
  unfold lineWrites
  split
  case isTrue hsteep =>
    rw [iabs_eq_natAbs, iabs_eq_natAbs] at hsteep
    have hle : (q.x - p.x).natAbs ≤ (q.y - p.y).natAbs := by omega
    rw [max_eq_right hle, lineSetup_length]
  case isFalse hsteep =>
    rw [iabs_eq_natAbs, iabs_eq_natAbs] at hsteep
    have hle : (q.y - p.y).natAbs ≤ (q.x - p.x).natAbs := by omega
    rw [max_eq_left hle, lineSetup_length]

/-! ### Horizontal lines: exact pixel characterization -/

theorem lineLoop_horizontal (ystep T2 : Int) (col : color) :
    ∀ (n : Nat) (x1 x y E : Int), E ≤ 0 → x1 = x + n →
      lineLoop false 1 ystep 0 T2 x1 col n x y E =
        (List.range n).map (fun (i : Nat) => ((⟨x + (i : Int), y⟩ : xy), col)) := by
  intro n
  induction n with
  | zero => intro x1 x y E hE h; rfl
  | succ n ih =>
    intro x1 x y E hE h
    have hne : x ≠ x1 := by omega
    simp only [lineLoop]
    rw [if_neg hne, if_neg (by omega : ¬ 0 < E)]
    rw [ih x1 (x + 1) y (E + 0) (by omega) (by push_cast at h ⊢; linarith)]
    rw [List.range_succ_eq_map]
    simp only [List.map_cons, List.map_map, Nat.cast_zero, add_zero, Bool.false_eq_true,
      if_false]
    congr 1
    apply List.map_congr_left
    intro i hi
    simp only [Function.comp_apply, Prod.mk.injEq, xy.mk.injEq]
    constructor
    · constructor
      · push_cast; ring
      · trivial
    · trivial

theorem lineWrites_horizontal (x0 x1 h : Int) (col : color) (hle : x0 ≤ x1) :
    lineWrites ⟨x0, h⟩ ⟨x1, h⟩ col =
      (List.range (x1 - x0).toNat).map
        (fun (i : Nat) => ((⟨x0 + (i : Int), h⟩ : xy), col)) := by
  unfold lineWrites
  simp only
  rcases eq_or_lt_of_le hle with heq | hlt
  · subst heq
    rw [if_pos (by rw [iabs_eq_natAbs, iabs_eq_natAbs]; omega)]
    unfold lineSetup
    simp only [if_neg (by omega : ¬ x0 - x0 < 0)]
    have h0 : (x0 - x0).toNat = 0 := by omega
    rw [h0]
    simp [lineLoop]
  · rw [if_neg (by rw [iabs_eq_natAbs, iabs_eq_natAbs]; omega)]
    unfold lineSetup
    simp only [if_neg (by omega : ¬ x1 - x0 < 0), if_neg (by omega : ¬ h - h < 0)]
    have hh : h - h = 0 := by omega
    rw [hh]
    exact lineLoop_horizontal _ _ col (x1 - x0).toNat x1 x0 h _ (by omega) (by omega)

theorem lineWrites_horizontal_mem (x0 x1 h t : Int) (col : color)
    (h1 : x0 ≤ t) (h2 : t < x1) :
    ((⟨t, h⟩ : xy), col) ∈ lineWrites ⟨x0, h⟩ ⟨x1, h⟩ col := by
  rw [lineWrites_horizontal x0 x1 h col (by omega)]
  rw [List.mem_map]
  refine ⟨(t - x0).toNat, ?_, ?_⟩
  · rw [List.mem_range]; omega
  · simp only [Prod.mk.injEq, xy.mk.injEq]
    refine ⟨⟨by omega, trivial⟩, trivial⟩

/-! ### Colors emitted by a line -/

theorem lineLoop_color (steep : Bool) (xstep ystep TwoDy TwoDyTwoDx x1 : Int) (fg : color) :
    ∀ (n : Nat) (x y E : Int) (pc : xy × color),
      pc ∈ lineLoop steep xstep ystep TwoDy TwoDyTwoDx x1 fg n x y E → pc.2 = fg := by
  intro n
  induction n with
  | zero => intro x y E pc hmem; simp [lineLoop] at hmem
  | succ n ih =>
    intro x y E pc hmem
    simp only [lineLoop] at hmem
    by_cases hx : x = x1
    · rw [if_pos hx] at hmem; simp at hmem
    · rw [if_neg hx] at hmem
      rcases List.mem_cons.mp hmem with hhd | htl
      · rw [hhd]
      · revert htl; split <;> intro htl <;> exact ih _ _ _ _ htl

theorem lineWrites_color (p q : xy) (fg : color) :
    ∀ pc ∈ lineWrites p q fg, pc.2 = fg := by
  intro pc hmem
  unfold lineWrites lineSetup at hmem
  revert hmem
  split <;> exact fun hmem => lineLoop_color _ _ _ _ _ _ _ _ _ _ _ _ hmem

/-! ### Claim C1 -/

/-- C1 counterexample: rendering the line from (0,0) to (3,0) with
foreground black never writes the endpoint pixel (3,0) — the stepping loop
exits as soon as `x` reaches `x1`, before writing it — so the claimed
four-pixel sequence ending with (3,0) is not produced. -/
theorem line_0_0_to_3_0_endpoint_missing :
    (⟨3, 0⟩ : xy) ∉ pix (lineWrites ⟨0, 0⟩ ⟨3, 0⟩ black) ∧
      lineWrites ⟨0, 0⟩ ⟨3, 0⟩ black ≠
        [(⟨0, 0⟩, black), (⟨1, 0⟩, black), (⟨2, 0⟩, black), (⟨3, 0⟩, black)] := by
  decide

/-- C1 (amended): rendering the line from (0,0) to (3,0) with foreground
black writes exactly the pixels (0,0), (1,0), (2,0), in that order, each
exactly once and each in the foreground color; the endpoint (3,0) is not
written. -/
theorem line_0_0_to_3_0_writes :
    lineWrites ⟨0, 0⟩ ⟨3, 0⟩ black =
      [(⟨0, 0⟩, black), (⟨1, 0⟩, black), (⟨2, 0⟩, black)] ∧
      (pix (lineWrites ⟨0, 0⟩ ⟨3, 0⟩ black)).Nodup := by
  decide

/-! ### Claim C3 -/

/-- C3 counterexample: the pixel sets of a line and its reverse differ —
from (0,0) to (1,0) only (0,0) is written, while from (1,0) to (0,0) only
(1,0) is written (the endpoint-exclusive loop keeps the start, drops the
end). -/
theorem line_reverse_pixel_sets_differ :
    (⟨0, 0⟩ : xy) ∈ pix (lineWrites ⟨0, 0⟩ ⟨1, 0⟩ black) ∧
      (⟨0, 0⟩ : xy) ∉ pix (lineWrites ⟨1, 0⟩ ⟨0, 0⟩ black) := by
  decide

/-- C3 (amended): rendering a line from A to B performs exactly as many
pixel writes as rendering from B to A (both count `max |Dx| |Dy|`), even
though the two pixel sets can differ at the endpoints. -/
theorem line_reverse_write_count_eq (p q : xy) (fg : color) :
    (lineWrites p q fg).length = (lineWrites q p fg).length := by
  rw [lineWrites_length, lineWrites_length]
  have h1 : (q.x - p.x).natAbs = (p.x - q.x).natAbs := by omega
  have h2 : (q.y - p.y).natAbs = (p.y - q.y).natAbs := by omega
  rw [h1, h2]

/-! ### Claim C6 -/

/-- C6 counterexample: the 45° diagonal from (0,0) to (1,1) has |Dx| = 1
but writes exactly one pixel, not |Dx| + 1 = 2 (the endpoint is excluded
by the stepping loop). -/
theorem line_diagonal_count_not_plus_one :
    (lineWrites ⟨0, 0⟩ ⟨1, 1⟩ black).length = 1 ∧
      (lineWrites ⟨0, 0⟩ ⟨1, 1⟩ black).length ≠ ((1 : Int) - 0).natAbs + 1 := by
  decide

/-- C6 (amended): for every 45° diagonal line (|Dx| = |Dy|) the number of
pixels written equals |Dx| (not |Dx| + 1: the endpoint is never written). -/
theorem line_diagonal_count (p q : xy) (fg : color)
    (hdiag : (q.x - p.x).natAbs = (q.y - p.y).natAbs) :
    (lineWrites p q fg).length = (q.x - p.x).natAbs := by
  rw [lineWrites_length, hdiag, max_self]

/-- C6 witness: the diagonal from (0,0) to (2,2) writes exactly
|2 - 0| = 2 pixels. -/
theorem line_diagonal_count_checked :
    (lineWrites ⟨0, 0⟩ ⟨2, 2⟩ black).length = ((2 : Int) - 0).natAbs :=
  line_diagonal_count ⟨0, 0⟩ ⟨2, 2⟩ black (by decide)

/-! ### Claim C8 -/

/-- C8: for every center and colors, a circle of radius 0 renders nothing:
`circle::draw` returns before any write (`if (radius < 1) return;`).  In
this embedding the render is a total function returning the empty write
list — a normal, silent no-op with no error path. -/
theorem circle_radius_zero_no_writes (c : xy) (fg bg : color) :
    circleWrites c 0 fg bg = [] := rfl

/-! ### Claim C5 -/

/-- C5 counterexample: the circle at (0,0) with radius 1, foreground
black, transparent fill performs 12 writes, writing the pixel (1,0) three
times — the octant loop runs once for radius 1 and re-writes all four axis
points, so the "no duplicate writes" part of the claim fails. -/
theorem circle_radius_one_duplicates :
    (circleWrites ⟨0, 0⟩ 1 black transparent).length = 12 ∧
      (pix (circleWrites ⟨0, 0⟩ 1 black transparent)).count ⟨1, 0⟩ = 3 := by
  decide

/-- C5 (amended): the circle at (0,0) with radius 1, foreground black and
transparent fill writes exactly the four axis pixels (0,1), (0,-1), (1,0),
(-1,0) — as a set — all in black and with no fill-chord writes, but with
duplicates: the full write sequence has 12 entries (each axis pixel is
written three times: once by the axis-point prologue and twice by the
single octant-loop iteration). -/
theorem circle_radius_one_writes :
    circleWrites ⟨0, 0⟩ 1 black transparent =
      [(⟨0, 1⟩, black), (⟨0, -1⟩, black), (⟨1, 0⟩, black), (⟨-1, 0⟩, black),
       (⟨1, 0⟩, black), (⟨-1, 0⟩, black), (⟨1, 0⟩, black), (⟨-1, 0⟩, black),
       (⟨0, 1⟩, black), (⟨0, 1⟩, black), (⟨0, -1⟩, black), (⟨0, -1⟩, black)] ∧
      (∀ p : xy, p ∈ pix (circleWrites ⟨0, 0⟩ 1 black transparent) ↔
        (p = ⟨0, 1⟩ ∨ p = ⟨0, -1⟩ ∨ p = ⟨1, 0⟩ ∨ p = ⟨-1, 0⟩)) := by
  have h12 : circleWrites ⟨0, 0⟩ 1 black transparent =
      [(⟨0, 1⟩, black), (⟨0, -1⟩, black), (⟨1, 0⟩, black), (⟨-1, 0⟩, black),
       (⟨1, 0⟩, black), (⟨-1, 0⟩, black), (⟨1, 0⟩, black), (⟨-1, 0⟩, black),
       (⟨0, 1⟩, black), (⟨0, 1⟩, black), (⟨0, -1⟩, black), (⟨0, -1⟩, black)] := by
    decide
  refine ⟨h12, fun p => ?_⟩
  rw [pix, h12]
  simp only [List.map_cons, List.map_nil, List.mem_cons, List.not_mem_nil, or_false]
  tauto

/-! ### The octant loop invariant -/

/-- Loop-head invariant of `circle::draw`'s octant loop for a circle of
radius `r`: the decision variable `fx` tracks `(x+1)^2 + y*(y-1) - r^2`
and the increments track `2x+1` and `-2y`; the state stays in the first
octant band `0 ≤ x`, `0 ≤ y ≤ r`; rows of height `x` still to be handled
are no wider than `y + 1` (`r^2 ≤ x^2 + (y+1)^2`); and while the guard
holds the decision value is at most `2x + 1`. -/
def circP (r x y fx dFx dFy : Int) : Prop :=
  fx = (x + 1) * (x + 1) + y * (y - 1) - r * r ∧
  dFx = 2 * x + 1 ∧
  dFy = -2 * y ∧
  0 ≤ x ∧ 0 ≤ y ∧ y ≤ r ∧
  r * r ≤ x * x + (y + 1) * (y + 1) ∧
  (x < y → fx ≤ 2 * x + 1)

theorem circP_init (r : Int) (hr : 0 ≤ r) : circP r 0 r (1 - r) 1 (-2 * r) := by
  refine ⟨by ring, by ring, by ring, le_refl 0, hr, le_refl r, by nlinarith, ?_⟩
  intro h
  nlinarith

theorem circP_step_dec (r x y fx dFx dFy : Int) (hP : circP r x y fx dFx dFy)
    (hxy : x < y) (hfx : 0 ≤ fx) :
    circP r (x + 1) (y - 1) (fx + (dFy + 2) + (dFx + 2)) (dFx + 2) (dFy + 2) := by
  obtain ⟨hA, hB, hC, hx0, hy0, hyr, hD, hE⟩ := hP
  subst hA; subst hB; subst hC
  refine ⟨by ring, by ring, by ring, by omega, by omega, by omega, by nlinarith, ?_⟩
  intro hlt
  have hEv := hE hxy
  nlinarith

theorem circP_step_inc (r x y fx dFx dFy : Int) (hP : circP r x y fx dFx dFy)
    (hxy : x < y) (hfx : fx < 0) :
    circP r (x + 1) y (fx + (dFx + 2)) (dFx + 2) dFy := by
  obtain ⟨hA, hB, hC, hx0, hy0, hyr, hD, hE⟩ := hP
  subst hA; subst hB; subst hC
  refine ⟨by ring, by ring, by ring, by omega, hy0, hyr, by nlinarith, ?_⟩
  intro hlt
  nlinarith

/-! ### Colors emitted by a circle -/

theorem circleStep_color (c : xy) (fg bg : color) (x y : Int) :
    ∀ pc ∈ circleStep c fg bg x y, pc.2 = fg ∨ (pc.2 = bg ∧ bg ≠ transparent) := by
  intro pc hmem
  unfold circleStep at hmem
  rcases List.mem_append.mp hmem with h8 | hch
  · left
    simp only [List.mem_cons, List.not_mem_nil, or_false] at h8
    rcases h8 with h | h | h | h | h | h | h | h <;> rw [h]
  · by_cases hbg : bg ≠ transparent
    · rw [if_pos hbg] at hch
      right
      refine ⟨?_, hbg⟩
      rcases List.mem_append.mp hch with hch | h4
      · rcases List.mem_append.mp hch with hch | h3
        · rcases List.mem_append.mp hch with h1 | h2
          · exact lineWrites_color _ _ _ _ h1
          · exact lineWrites_color _ _ _ _ h2
        · exact lineWrites_color _ _ _ _ h3
      · exact lineWrites_color _ _ _ _ h4
    · rw [if_neg hbg] at hch
      simp at hch

theorem circleLoop_color (c : xy) (fg bg : color) :
    ∀ (n : Nat) (x y fx dFx dFy : Int),
      ∀ pc ∈ circleLoop c fg bg n x y fx dFx dFy,
        pc.2 = fg ∨ (pc.2 = bg ∧ bg ≠ transparent) := by
  intro n
  induction n with
  | zero => intro x y fx dFx dFy pc hmem; simp [circleLoop] at hmem
  | succ n ih =>
    intro x y fx dFx dFy pc hmem
    simp only [circleLoop] at hmem
    by_cases hxy : x < y
    · rw [if_pos hxy] at hmem
      by_cases hfx : 0 ≤ fx
      · rw [if_pos hfx] at hmem
        rcases List.mem_append.mp hmem with hs | hr
        · exact circleStep_color _ _ _ _ _ _ hs
        · exact ih _ _ _ _ _ _ hr
      · rw [if_neg hfx] at hmem
        rcases List.mem_append.mp hmem with hs | hr
        · exact circleStep_color _ _ _ _ _ _ hs
        · exact ih _ _ _ _ _ _ hr
    · rw [if_neg hxy] at hmem
      simp at hmem

theorem circleWrites_color (c : xy) (radius : Nat) (fg bg : color) :
    ∀ pc ∈ circleWrites c radius fg bg,
      pc.2 = fg ∨ (pc.2 = bg ∧ bg ≠ transparent) := by
  intro pc hmem
  unfold circleWrites at hmem
  by_cases hr : radius < 1
  · rw [if_pos hr] at hmem
    simp at hmem
  · rw [if_neg hr] at hmem
    rcases List.mem_append.mp hmem with hmem | hloop
    · rcases List.mem_append.mp hmem with h4 | hfill
      · left
        simp only [List.mem_cons, List.not_mem_nil, or_false] at h4
        rcases h4 with h | h | h | h <;> rw [h]
      · by_cases hbg : bg ≠ transparent
        · rw [if_pos hbg] at hfill
          left
          rcases List.mem_append.mp hfill with h2 | hdia
          · simp only [List.mem_cons, List.not_mem_nil, or_false] at h2
            rcases h2 with h | h <;> rw [h]
          · exact lineWrites_color _ _ _ _ hdia
        · rw [if_neg hbg] at hfill
          simp at hfill
    · exact circleLoop_color _ _ _ _ _ _ _ _ _ _ hloop

/-! ### Claim C10 -/

/-- C10 counterexample: a circle constructed with transparent foreground
(and transparent fill) writes the transparent sentinel color itself to the
sink — the foreground color is never checked against the sentinel, so
"the transparent sentinel color itself is never written" fails as stated. -/
theorem circle_transparent_fg_written :
    ((⟨0, 1⟩ : xy), transparent) ∈ circleWrites ⟨0, 0⟩ 1 transparent transparent := by
  decide

/-- C10 (amended): every write of a circle render uses the foreground
color or the fill color, and a fill-colored write can occur only when the
fill color differs from the transparent sentinel; with transparent fill
every write uses the foreground color; and provided the foreground color
is not the transparent sentinel, the sentinel itself is never written. -/
theorem circle_write_colors (c : xy) (radius : Nat) (fg bg : color) :
    (∀ pc ∈ circleWrites c radius fg bg,
        pc.2 = fg ∨ (pc.2 = bg ∧ bg ≠ transparent)) ∧
    (bg = transparent → ∀ pc ∈ circleWrites c radius fg bg, pc.2 = fg) ∧
    (fg ≠ transparent → ∀ pc ∈ circleWrites c radius fg bg, pc.2 ≠ transparent) := by
  refine ⟨circleWrites_color c radius fg bg, ?_, ?_⟩
  · intro hbg pc hmem
    rcases circleWrites_color c radius fg bg pc hmem with h | ⟨h1, h2⟩
    · exact h
    · exact absurd hbg h2
  · intro hfg pc hmem
    rcases circleWrites_color c radius fg bg pc hmem with h | ⟨h1, h2⟩
    · rw [h]; exact hfg
    · rw [h1]; exact h2

/-- C10 witness: applying the color theorem to the first write of the
radius-1 circle with black foreground and white fill. -/
theorem circle_write_colors_checked :
    black = black ∨ (black = white ∧ white ≠ transparent) :=
  (circle_write_colors ⟨0, 0⟩ 1 black white).1 (⟨0, 1⟩, black) (by decide)

/-! ### Claim C2 -/

/-- C2 counterexample: for the circle at (0,0), radius 1, foreground
black, fill white, the entire pre-loop write sequence (the first 8 writes:
four axis points, two redundant vertical axis points, and the two diameter
chord pixels) is black — the diameter chord is drawn in the foreground
color, not in the fill color as claimed. -/
theorem circle_fill_chord_not_fill_colored :
    (circleWrites ⟨0, 0⟩ 1 black white).take 8 =
      [(⟨0, 1⟩, black), (⟨0, -1⟩, black), (⟨1, 0⟩, black), (⟨-1, 0⟩, black),
       (⟨0, 1⟩, black), (⟨0, -1⟩, black), (⟨-1, 0⟩, black), (⟨0, 0⟩, black)] ∧
      white ∉ ((circleWrites ⟨0, 0⟩ 1 black white).take 8).map Prod.snd := by
  decide

/-- C2 (amended): when the fill color is not transparent, the circle
render emits, before the octant loop, exactly: the four axis-extreme
points in foreground, the two vertical axis-extreme points again in
foreground, and the horizontal diameter chord — drawn in the *foreground*
color (not the fill color), covering the pixels from the left extreme
(center - (radius, 0)) up to but excluding the right extreme (the line
rasterizer never writes its endpoint). -/
theorem circle_fill_prologue (c : xy) (radius : Nat) (fg bg : color)
    (hr : 1 ≤ radius) (hbg : bg ≠ transparent) :
    circleWrites c radius fg bg =
      [(c + ⟨0, (radius : Int)⟩, fg), (c + ⟨0, -(radius : Int)⟩, fg),
       (c + ⟨(radius : Int), 0⟩, fg), (c + ⟨-(radius : Int), 0⟩, fg),
       (c + ⟨0, (radius : Int)⟩, fg), (c + ⟨0, -(radius : Int)⟩, fg)]
        ++ (List.range (2 * radius)).map
            (fun (i : Nat) => ((⟨c.x - (radius : Int) + (i : Int), c.y⟩ : xy), fg))
        ++ circleLoop c fg bg radius 0 (radius : Int) (1 - (radius : Int)) 1
            (-2 * (radius : Int)) := by
  unfold circleWrites
  rw [if_neg (by omega : ¬ radius < 1), if_pos hbg]
  simp only [xy_sub_mk, xy_add_mk, add_zero, sub_zero, zero_add, ← sub_eq_add_neg]
  rw [lineWrites_horizontal (c.x - (radius : Int)) (c.x + (radius : Int)) c.y fg
    (by omega)]
  have h2r : (c.x + (radius : Int) - (c.x - (radius : Int))).toNat = 2 * radius := by
    omega
  rw [h2r]
  simp only [List.cons_append, List.nil_append, List.append_assoc]

/-- C2 witness: the prologue equation instantiated at center (0,0),
radius 1, black foreground, white fill. -/
theorem circle_fill_prologue_checked :
    circleWrites ⟨0, 0⟩ 1 black white =
      [((⟨0, 0⟩ : xy) + ⟨0, ((1 : Nat) : Int)⟩, black),
       ((⟨0, 0⟩ : xy) + ⟨0, -((1 : Nat) : Int)⟩, black),
       ((⟨0, 0⟩ : xy) + ⟨((1 : Nat) : Int), 0⟩, black),
       ((⟨0, 0⟩ : xy) + ⟨-((1 : Nat) : Int), 0⟩, black),
       ((⟨0, 0⟩ : xy) + ⟨0, ((1 : Nat) : Int)⟩, black),
       ((⟨0, 0⟩ : xy) + ⟨0, -((1 : Nat) : Int)⟩, black)]
        ++ (List.range (2 * 1)).map
            (fun (i : Nat) =>
              ((⟨(⟨0, 0⟩ : xy).x - ((1 : Nat) : Int) + (i : Int), (⟨0, 0⟩ : xy).y⟩ : xy),
                black))
        ++ circleLoop ⟨0, 0⟩ black white 1 0 ((1 : Nat) : Int) (1 - ((1 : Nat) : Int)) 1
            (-2 * ((1 : Nat) : Int)) :=
  circle_fill_prologue ⟨0, 0⟩ 1 black white (by decide) (by decide)

/-! ### Write counts of a circle render -/

theorem lineWrites_length_mk (a b d e : Int) (col : color) :
    (lineWrites ⟨a, b⟩ ⟨d, e⟩ col).length = max (d - a).natAbs (e - b).natAbs := by
  rw [lineWrites_length]

theorem circleStep_length_transparent (c : xy) (fg : color) (x y : Int) :
    (circleStep c fg transparent x y).length = 8 := by
  unfold circleStep
  rw [if_neg (by simp : ¬ (transparent ≠ transparent))]
  simp

theorem circleStep_length_fill (c : xy) (fg bg : color) (hbg : bg ≠ transparent)
    (x y : Int) :
    (circleStep c fg bg x y).length =
      8 + (2 * (2 * x).natAbs + 2 * (2 * y).natAbs) := by
  unfold circleStep
  rw [if_pos hbg]
  simp only [xy_add_mk, lineWrites_length_mk, List.length_append, List.length_cons,
    List.length_nil]
  omega

theorem circleLoop_length_transparent (c : xy) (fg : color) :
    ∀ (n : Nat) (x y fx dFx dFy : Int),
      (circleLoop c fg transparent n x y fx dFx dFy).length ≤ 8 * n := by
  intro n
  induction n with
  | zero => intro x y fx dFx dFy; simp [circleLoop]
  | succ n ih =>
    intro x y fx dFx dFy
    simp only [circleLoop]
    by_cases hxy : x < y
    · rw [if_pos hxy]
      by_cases hfx : 0 ≤ fx
      · rw [if_pos hfx, List.length_append, circleStep_length_transparent]
        have := ih (x + 1) (y - 1) (fx + (dFy + 2) + (dFx + 2)) (dFx + 2) (dFy + 2)
        omega
      · rw [if_neg hfx, List.length_append, circleStep_length_transparent]
        have := ih (x + 1) y (fx + (dFx + 2)) (dFx + 2) dFy
        omega
    · rw [if_neg hxy]
      simp

theorem circleLoop_length_ub (c : xy) (fg bg : color) (R : Int) :
    ∀ (n : Nat) (x y fx dFx dFy : Int), 0 ≤ x → y ≤ R →
      (circleLoop c fg bg n x y fx dFx dFy).length ≤ n * (8 + 8 * R.toNat) := by
  intro n
  induction n with
  | zero => intro x y fx dFx dFy hx hy; simp [circleLoop]
  | succ n ih =>
    intro x y fx dFx dFy hx hy
    simp only [circleLoop]
    by_cases hxy : x < y
    · rw [if_pos hxy]
      have hstep : ∀ y' : Int, 0 ≤ y' → y' ≤ R →
          (circleStep c fg bg (x + 1) y').length ≤ 8 + 8 * R.toNat := by
        intro y' h0 hR
        by_cases hbg : bg ≠ transparent
        · rw [circleStep_length_fill c fg bg hbg]
          omega
        · rw [not_not.mp hbg, circleStep_length_transparent]
          omega
      by_cases hfx : 0 ≤ fx
      · rw [if_pos hfx, List.length_append, Nat.succ_mul]
        have h1 := hstep (y - 1) (by omega) (by omega)
        have h2 := ih (x + 1) (y - 1) (fx + (dFy + 2) + (dFx + 2)) (dFx + 2) (dFy + 2)
          (by omega) (by omega)
        generalize hP : n * (8 + 8 * R.toNat) = P at h2 ⊢
        omega
      · rw [if_neg hfx, List.length_append, Nat.succ_mul]
        have h1 := hstep y (by omega) hy
        have h2 := ih (x + 1) y (fx + (dFx + 2)) (dFx + 2) dFy (by omega) hy
        generalize hP : n * (8 + 8 * R.toNat) = P at h2 ⊢
        omega
    · rw [if_neg hxy]
      simp

theorem circleWrites_length_transparent (c : xy) (radius : Nat) (fg : color) :
    (circleWrites c radius fg transparent).length ≤ 4 + 8 * radius := by
  unfold circleWrites
  by_cases hr : radius < 1
  · rw [if_pos hr]; simp
  · rw [if_neg hr, if_neg (by simp : ¬ (transparent ≠ transparent))]
    simp only [List.length_append, List.length_cons, List.length_nil]
    have := circleLoop_length_transparent c fg radius 0 (radius : Int)
      (1 - (radius : Int)) 1 (-2 * (radius : Int))
    omega

theorem circleWrites_length_ub (c : xy) (radius : Nat) (fg bg : color) :
    (circleWrites c radius fg bg).length ≤
      6 + 2 * radius + radius * (8 + 8 * radius) := by
  unfold circleWrites
  by_cases hr : radius < 1
  · rw [if_pos hr]; simp
  · rw [if_neg hr]
    have hloop := circleLoop_length_ub c fg bg (radius : Int) radius 0 (radius : Int)
      (1 - (radius : Int)) 1 (-2 * (radius : Int)) (le_refl 0) (le_refl _)
    have hRt : ((radius : Int)).toNat = radius := by omega
    rw [hRt] at hloop
    by_cases hbg : bg ≠ transparent
    · rw [if_pos hbg]
      simp only [xy_sub_mk, xy_add_mk, add_zero, sub_zero, lineWrites_length_mk,
        List.length_append, List.length_cons, List.length_nil]
      generalize hP : radius * (8 + 8 * radius) = P at hloop ⊢
      omega
    · rw [if_neg hbg]
      simp only [List.length_append, List.length_cons, List.length_nil]
      generalize hP : radius * (8 + 8 * radius) = P at hloop ⊢
      omega

/-! ### Quadratic lower bound on filled-circle write counts -/

theorem circleLoop_fill_length_lb (c : xy) (fg bg : color) (hbg : bg ≠ transparent) :
    ∀ (n : Nat) (x y fx dFx dFy : Int), (y - x).toNat ≤ n → 0 ≤ x → 0 ≤ y →
      4 * (x + y).toNat * (((y - x).toNat + 1) / 2) ≤
        (circleLoop c fg bg n x y fx dFx dFy).length := by
  intro n
  induction n with
  | zero =>
    intro x y fx dFx dFy hfuel hx hy
    have h0 : (y - x).toNat = 0 := by omega
    rw [h0]
    simp [circleLoop]
  | succ n ih =>
    intro x y fx dFx dFy hfuel hx hy
    simp only [circleLoop]
    by_cases hxy : x < y
    · rw [if_pos hxy]
      by_cases hfx : 0 ≤ fx
      · rw [if_pos hfx, List.length_append]
        have hrec := ih (x + 1) (y - 1) (fx + (dFy + 2) + (dFx + 2)) (dFx + 2) (dFy + 2)
          (by omega) (by omega) (by omega)
        rw [show x + 1 + (y - 1) = x + y from by ring] at hrec
        have hq : ((y - x).toNat + 1) / 2 ≤ ((y - 1 - (x + 1)).toNat + 1) / 2 + 1 := by
          omega
        have hstepge : 4 * (x + y).toNat ≤ (circleStep c fg bg (x + 1) (y - 1)).length := by
          rw [circleStep_length_fill c fg bg hbg]
          omega
        calc 4 * (x + y).toNat * (((y - x).toNat + 1) / 2)
            ≤ 4 * (x + y).toNat * ((((y - 1 - (x + 1)).toNat + 1) / 2) + 1) :=
              Nat.mul_le_mul_left _ hq
          _ = 4 * (x + y).toNat * (((y - 1 - (x + 1)).toNat + 1) / 2) +
                4 * (x + y).toNat := by rw [Nat.mul_succ]
          _ ≤ (circleLoop c fg bg n (x + 1) (y - 1) (fx + (dFy + 2) + (dFx + 2))
                  (dFx + 2) (dFy + 2)).length +
                (circleStep c fg bg (x + 1) (y - 1)).length :=
              Nat.add_le_add hrec hstepge
          _ = (circleStep c fg bg (x + 1) (y - 1)).length +
                (circleLoop c fg bg n (x + 1) (y - 1) (fx + (dFy + 2) + (dFx + 2))
                  (dFx + 2) (dFy + 2)).length := Nat.add_comm _ _
      · rw [if_neg hfx, List.length_append]
        have hrec := ih (x + 1) y (fx + (dFx + 2)) (dFx + 2) dFy
          (by omega) (by omega) hy
        have hmono : 4 * (x + y).toNat ≤ 4 * (x + 1 + y).toNat := by omega
        have hrec' : 4 * (x + y).toNat * (((y - (x + 1)).toNat + 1) / 2) ≤
            (circleLoop c fg bg n (x + 1) y (fx + (dFx + 2)) (dFx + 2) dFy).length :=
          le_trans (Nat.mul_le_mul_right _ hmono) hrec
        have hq : ((y - x).toNat + 1) / 2 ≤ ((y - (x + 1)).toNat + 1) / 2 + 1 := by
          omega
        have hstepge : 4 * (x + y).toNat ≤ (circleStep c fg bg (x + 1) y).length := by
          rw [circleStep_length_fill c fg bg hbg]
          omega
        calc 4 * (x + y).toNat * (((y - x).toNat + 1) / 2)
            ≤ 4 * (x + y).toNat * ((((y - (x + 1)).toNat + 1) / 2) + 1) :=
              Nat.mul_le_mul_left _ hq
          _ = 4 * (x + y).toNat * (((y - (x + 1)).toNat + 1) / 2) +
                4 * (x + y).toNat := by rw [Nat.mul_succ]
          _ ≤ (circleLoop c fg bg n (x + 1) y (fx + (dFx + 2)) (dFx + 2) dFy).length +
                (circleStep c fg bg (x + 1) y).length :=
              Nat.add_le_add hrec' hstepge
          _ = (circleStep c fg bg (x + 1) y).length +
                (circleLoop c fg bg n (x + 1) y (fx + (dFx + 2)) (dFx + 2) dFy).length :=
              Nat.add_comm _ _
    · rw [if_neg hxy]
      have h0 : (y - x).toNat = 0 := by omega
      rw [h0]
      simp

theorem circleWrites_fill_length_lb (c : xy) (radius : Nat) (fg bg : color)
    (hbg : bg ≠ transparent) (hr : 1 ≤ radius) :
    4 * radius * ((radius + 1) / 2) ≤ (circleWrites c radius fg bg).length := by
  unfold circleWrites
  rw [if_neg (by omega : ¬ radius < 1), if_pos hbg]
  have hloop := circleLoop_fill_length_lb c fg bg hbg radius 0 (radius : Int)
    (1 - (radius : Int)) 1 (-2 * (radius : Int)) (by omega) (le_refl 0) (by omega)
  rw [show (0 : Int) + (radius : Int) = (radius : Int) from by ring,
    show (radius : Int) - 0 = (radius : Int) from by ring] at hloop
  have hRt : ((radius : Int)).toNat = radius := by omega
  rw [hRt] at hloop
  rw [List.length_append, List.length_append]
  generalize hP : 4 * radius * ((radius + 1) / 2) = P at hloop ⊢
  omega

/-! ### Membership helpers -/

theorem pix_append (l1 l2 : List (xy × color)) :
    pix (l1 ++ l2) = pix l1 ++ pix l2 := List.map_append _ _ _

theorem lineWrites_horizontal_mem_iff (x0 x1 h : Int) (col : color) (hle : x0 ≤ x1)
    (pc : xy × color) :
    pc ∈ lineWrites ⟨x0, h⟩ ⟨x1, h⟩ col ↔
      ∃ t : Int, x0 ≤ t ∧ t < x1 ∧ pc = (⟨t, h⟩, col) := by
  rw [lineWrites_horizontal x0 x1 h col hle, List.mem_map]
  constructor
  · rintro ⟨i, hi, rfl⟩
    rw [List.mem_range] at hi
    exact ⟨x0 + i, by omega, by omega, rfl⟩
  · rintro ⟨t, h1, h2, rfl⟩
    refine ⟨(t - x0).toNat, List.mem_range.mpr (by omega), ?_⟩
    simp only [Prod.mk.injEq, xy.mk.injEq]
    refine ⟨⟨by omega, trivial⟩, trivial⟩

/-! ### No write lands further than r*r + r from the center -/

theorem circleStep_writes (c : xy) (fg bg : color) (x y : Int)
    (hx : 0 ≤ x) (hy : 0 ≤ y) :
    ∀ pc ∈ circleStep c fg bg x y,
      ∃ u v : Int, pc.1 = c + ⟨u, v⟩ ∧ u * u + v * v ≤ x * x + y * y := by
  intro pc hmem
  unfold circleStep at hmem
  rcases List.mem_append.mp hmem with h8 | hch
  · simp only [List.mem_cons, List.not_mem_nil, or_false] at h8
    rcases h8 with h | h | h | h | h | h | h | h
    · exact ⟨x, y, by rw [h], by nlinarith⟩
    · exact ⟨-x, y, by rw [h], by nlinarith⟩
    · exact ⟨x, -y, by rw [h], by nlinarith⟩
    · exact ⟨-x, -y, by rw [h], by nlinarith⟩
    · exact ⟨y, x, by rw [h], by nlinarith⟩
    · exact ⟨-y, x, by rw [h], by nlinarith⟩
    · exact ⟨y, -x, by rw [h], by nlinarith⟩
    · exact ⟨-y, -x, by rw [h], by nlinarith⟩
  · by_cases hbg : bg ≠ transparent
    · rw [if_pos hbg] at hch
      simp only [xy_add_mk] at hch
      have hhoriz : ∀ (w h t : Int), 0 ≤ w → c.x + -w ≤ t → t < c.x + w →
          ∃ u : Int, (⟨t, h⟩ : xy) = ⟨c.x + u, h⟩ ∧ u * u ≤ w * w := by
        intro w h t hw h1 h2
        refine ⟨t - c.x, ?_, ?_⟩
        · have hcx : c.x + (t - c.x) = t := by omega
          rw [hcx]
        · have hprod : 0 ≤ (w - (t - c.x)) * (w + (t - c.x)) :=
            mul_nonneg (by omega) (by omega)
          nlinarith [hprod]
      rcases List.mem_append.mp hch with hch | h4
      · rcases List.mem_append.mp hch with hch | h3
        · rcases List.mem_append.mp hch with h1 | h2
          · rw [lineWrites_horizontal_mem_iff _ _ _ _ (by omega)] at h1
            obtain ⟨t, ht1, ht2, rfl⟩ := h1
            obtain ⟨u, hu, hub⟩ := hhoriz x (c.y + y) t hx ht1 ht2
            exact ⟨u, y, by rw [hu]; rfl, by nlinarith⟩
          · rw [lineWrites_horizontal_mem_iff _ _ _ _ (by omega)] at h2
            obtain ⟨t, ht1, ht2, rfl⟩ := h2
            obtain ⟨u, hu, hub⟩ := hhoriz x (c.y + -y) t hx ht1 ht2
            exact ⟨u, -y, by rw [hu]; rfl, by nlinarith⟩
        · rw [lineWrites_horizontal_mem_iff _ _ _ _ (by omega)] at h3
          obtain ⟨t, ht1, ht2, rfl⟩ := h3
          obtain ⟨u, hu, hub⟩ := hhoriz y (c.y + x) t hy ht1 ht2
          exact ⟨u, x, by rw [hu]; rfl, by nlinarith⟩
      · rw [lineWrites_horizontal_mem_iff _ _ _ _ (by omega)] at h4
        obtain ⟨t, ht1, ht2, rfl⟩ := h4
        obtain ⟨u, hu, hub⟩ := hhoriz y (c.y + -x) t hy ht1 ht2
        exact ⟨u, -x, by rw [hu]; rfl, by nlinarith⟩
    · rw [if_neg hbg] at hch
      simp at hch

theorem circleLoop_writes_bound (c : xy) (fg bg : color) (r : Int) :
    ∀ (n : Nat) (x y fx dFx dFy : Int), circP r x y fx dFx dFy →
      ∀ pc ∈ circleLoop c fg bg n x y fx dFx dFy,
        ∃ u v : Int, pc.1 = c + ⟨u, v⟩ ∧ u * u + v * v ≤ r * r + r := by
  intro n
  induction n with
  | zero => intro x y fx dFx dFy hP pc hmem; simp [circleLoop] at hmem
  | succ n ih =>
    intro x y fx dFx dFy hP pc hmem
    simp only [circleLoop] at hmem
    by_cases hxy : x < y
    · rw [if_pos hxy] at hmem
      have hP' := hP
      obtain ⟨hA, hB, hC, hx0, hy0, hyr, hD, hE⟩ := hP'
      have hEv : fx ≤ 2 * x + 1 := hE hxy
      by_cases hfx : 0 ≤ fx
      · rw [if_pos hfx] at hmem
        rcases List.mem_append.mp hmem with hs | hr2
        · obtain ⟨u, v, huv, hb⟩ :=
            circleStep_writes c fg bg (x + 1) (y - 1) (by omega) (by omega) pc hs
          refine ⟨u, v, huv, ?_⟩
          nlinarith [hb, hEv, hA, hxy, hyr, hy0]
        · exact ih (x + 1) (y - 1) _ _ _ (circP_step_dec r x y fx dFx dFy hP hxy hfx)
            pc hr2
      · rw [if_neg hfx] at hmem
        push_neg at hfx
        rcases List.mem_append.mp hmem with hs | hr2
        · obtain ⟨u, v, huv, hb⟩ :=
            circleStep_writes c fg bg (x + 1) y (by omega) hy0 pc hs
          refine ⟨u, v, huv, ?_⟩
          nlinarith [hb, hfx, hA, hyr, hy0]
        · exact ih (x + 1) y _ _ _ (circP_step_inc r x y fx dFx dFy hP hxy hfx) pc hr2
    · rw [if_neg hxy] at hmem
      simp at hmem

theorem circleWrites_writes_bound (c : xy) (radius : Nat) (fg bg : color) :
    ∀ pc ∈ circleWrites c radius fg bg,
      ∃ u v : Int, pc.1 = c + ⟨u, v⟩ ∧
        u * u + v * v ≤ (radius : Int) * radius + radius := by
  intro pc hmem
  unfold circleWrites at hmem
  by_cases hr : radius < 1
  · rw [if_pos hr] at hmem
    simp at hmem
  · rw [if_neg hr] at hmem
    rcases List.mem_append.mp hmem with hmem | hloop
    · rcases List.mem_append.mp hmem with h4 | hfill
      · simp only [List.mem_cons, List.not_mem_nil, or_false] at h4
        rcases h4 with h | h | h | h
        · exact ⟨0, (radius : Int), by rw [h], by nlinarith⟩
        · exact ⟨0, -(radius : Int), by rw [h], by nlinarith⟩
        · exact ⟨(radius : Int), 0, by rw [h], by nlinarith⟩
        · exact ⟨-(radius : Int), 0, by rw [h], by nlinarith⟩
      · by_cases hbg : bg ≠ transparent
        · rw [if_pos hbg] at hfill
          rcases List.mem_append.mp hfill with h2 | hdia
          · simp only [List.mem_cons, List.not_mem_nil, or_false] at h2
            rcases h2 with h | h
            · exact ⟨0, (radius : Int), by rw [h], by nlinarith⟩
            · exact ⟨0, -(radius : Int), by rw [h], by nlinarith⟩
          · simp only [xy_sub_mk, xy_add_mk, sub_zero, add_zero] at hdia
            rw [lineWrites_horizontal_mem_iff _ _ _ _ (by omega)] at hdia
            obtain ⟨t, ht1, ht2, rfl⟩ := hdia
            refine ⟨t - c.x, 0, ?_, ?_⟩
            · rw [xy_add_mk]
              simp only [xy.mk.injEq]
              omega
            · have hprod : 0 ≤ ((radius : Int) - (t - c.x)) * ((radius : Int) + (t - c.x)) :=
                mul_nonneg (by omega) (by omega)
              nlinarith [hprod]
        · rw [if_neg hbg] at hfill
          simp at hfill
    · exact circleLoop_writes_bound c fg bg (radius : Int) radius 0 (radius : Int)
        (1 - (radius : Int)) 1 (-2 * (radius : Int)) (circP_init _ (by omega)) pc hloop

/-! ### Interior coverage of a filled circle -/

theorem circleStep_cover (c : xy) (fg bg : color) (hbg : bg ≠ transparent) (x y : Int)
    (hx : 0 ≤ x) (hy : 0 ≤ y) :
    (∀ a : Int, -y ≤ a → a ≤ y →
        c + ⟨a, x⟩ ∈ pix (circleStep c fg bg x y) ∧
        c + ⟨a, -x⟩ ∈ pix (circleStep c fg bg x y)) ∧
    (∀ a : Int, -x ≤ a → a ≤ x →
        c + ⟨a, y⟩ ∈ pix (circleStep c fg bg x y) ∧
        c + ⟨a, -y⟩ ∈ pix (circleStep c fg bg x y)) := by
  have hchords : circleStep c fg bg x y =
      [(c + ⟨x, y⟩, fg), (c + ⟨-x, y⟩, fg), (c + ⟨x, -y⟩, fg), (c + ⟨-x, -y⟩, fg),
       (c + ⟨y, x⟩, fg), (c + ⟨-y, x⟩, fg), (c + ⟨y, -x⟩, fg), (c + ⟨-y, -x⟩, fg)]
      ++ (lineWrites (c + ⟨-x, y⟩) (c + ⟨x, y⟩) bg
          ++ lineWrites (c + ⟨-x, -y⟩) (c + ⟨x, -y⟩) bg
          ++ lineWrites (c + ⟨-y, x⟩) (c + ⟨y, x⟩) bg
          ++ lineWrites (c + ⟨-y, -x⟩) (c + ⟨y, -x⟩) bg) := by
    unfold circleStep
    rw [if_pos hbg]
  constructor
  · intro a h1 h2
    constructor
    · rcases eq_or_lt_of_le h2 with heq | hlt
      · refine mem_pix.mpr ⟨fg, ?_⟩
        rw [hchords, heq]
        simp
      · refine mem_pix.mpr ⟨bg, ?_⟩
        rw [hchords]
        refine List.mem_append_right _
          (List.mem_append_left _ (List.mem_append_right _ ?_))
        exact lineWrites_horizontal_mem (c.x + -y) (c.x + y) (c.y + x) (c.x + a) bg
          (by omega) (by omega)
    · rcases eq_or_lt_of_le h2 with heq | hlt
      · refine mem_pix.mpr ⟨fg, ?_⟩
        rw [hchords, heq]
        simp
      · refine mem_pix.mpr ⟨bg, ?_⟩
        rw [hchords]
        refine List.mem_append_right _ (List.mem_append_right _ ?_)
        exact lineWrites_horizontal_mem (c.x + -y) (c.x + y) (c.y + -x) (c.x + a) bg
          (by omega) (by omega)
  · intro a h1 h2
    constructor
    · rcases eq_or_lt_of_le h2 with heq | hlt
      · refine mem_pix.mpr ⟨fg, ?_⟩
        rw [hchords, heq]
        simp
      · refine mem_pix.mpr ⟨bg, ?_⟩
        rw [hchords]
        refine List.mem_append_right _
          (List.mem_append_left _ (List.mem_append_left _ (List.mem_append_left _ ?_)))
        exact lineWrites_horizontal_mem (c.x + -x) (c.x + x) (c.y + y) (c.x + a) bg
          (by omega) (by omega)
    · rcases eq_or_lt_of_le h2 with heq | hlt
      · refine mem_pix.mpr ⟨fg, ?_⟩
        rw [hchords, heq]
        simp
      · refine mem_pix.mpr ⟨bg, ?_⟩
        rw [hchords]
        refine List.mem_append_right _
          (List.mem_append_left _ (List.mem_append_left _ (List.mem_append_right _ ?_)))
        exact lineWrites_horizontal_mem (c.x + -x) (c.x + x) (c.y + -y) (c.x + a) bg
          (by omega) (by omega)

/-- At a loop-exit state (`y ≤ x`), no strictly interior pixel of row `y`
lies beyond column `x`: the invariant `r^2 ≤ x^2 + (y+1)^2` makes such a
pixel impossible. -/
theorem circleLoop_cover_exit (r x y : Int) (hx0 : 0 ≤ x)
    (hD : r * r ≤ x * x + (y + 1) * (y + 1)) (hyx : y ≤ x) :
    ∀ a : Int, (x < a ∨ a < -x) → ¬ (a * a + y * y < r * r) := by
  intro a ha hin
  have haa : (x + 1) * (x + 1) ≤ a * a := by
    rcases ha with ha | ha
    · nlinarith
    · nlinarith
  nlinarith [haa, hD, hin, hyx]

set_option maxHeartbeats 2000000 in
/-- Interior coverage of the remaining octant-loop iterations: from a
loop-head state satisfying the invariant, the loop's writes (with a
non-transparent fill) cover every strictly interior pixel whose row height
lies strictly between `x` and `y` (both signs of each coordinate row), and
every strictly interior pixel of rows `±y` beyond column `x`. -/
theorem circleLoop_cover (c : xy) (fg bg : color) (hbg : bg ≠ transparent) (r : Int) :
    ∀ (n : Nat) (x y fx dFx dFy : Int), (y - x).toNat ≤ n → circP r x y fx dFx dFy →
      (∀ a b : Int, x < b → b < y → a * a + b * b < r * r →
          c + ⟨a, b⟩ ∈ pix (circleLoop c fg bg n x y fx dFx dFy) ∧
          c + ⟨a, -b⟩ ∈ pix (circleLoop c fg bg n x y fx dFx dFy)) ∧
      (∀ a : Int, (x < a ∨ a < -x) → a * a + y * y < r * r →
          c + ⟨a, y⟩ ∈ pix (circleLoop c fg bg n x y fx dFx dFy) ∧
          c + ⟨a, -y⟩ ∈ pix (circleLoop c fg bg n x y fx dFx dFy)) := by
  intro n
  induction n with
  | zero =>
    intro x y fx dFx dFy hfuel hP
    obtain ⟨hA, hB, hC, hx0, hy0, hyr, hD, hE⟩ := hP
    constructor
    · intro a b hb1 hb2 _
      exact absurd (lt_trans hb1 hb2) (by omega)
    · intro a ha hin
      exact absurd hin (circleLoop_cover_exit r x y hx0 hD (by omega) a ha)
  | succ n ih =>
    intro x y fx dFx dFy hfuel hP
    by_cases hxy : x < y
    swap
    · obtain ⟨hA, hB, hC, hx0, hy0, hyr, hD, hE⟩ := hP
      constructor
      · intro a b hb1 hb2 _
        exact absurd (lt_trans hb1 hb2) hxy
      · intro a ha hin
        exact absurd hin (circleLoop_cover_exit r x y hx0 hD (by omega) a ha)
    · simp only [circleLoop]
      rw [if_pos hxy]
      have hP' := hP
      obtain ⟨hA, hB, hC, hx0, hy0, hyr, hD, hE⟩ := hP'
      by_cases hfx : 0 ≤ fx
      · -- decrement branch: the step plots row x+1 in full and row y-1 up
        -- to column x+1; the recursive call covers everything else.
        rw [if_pos hfx]
        have hPn := circP_step_dec r x y fx dFx dFy hP hxy hfx
        have hDn : r * r ≤ (x + 1) * (x + 1) + y * y := by
          nlinarith [hfx, hA, hy0]
        have ihn := ih (x + 1) (y - 1) (fx + (dFy + 2) + (dFx + 2)) (dFx + 2) (dFy + 2)
          (by omega) hPn
        have hstep := circleStep_cover c fg bg hbg (x + 1) (y - 1) (by omega) (by omega)
        constructor
        · intro a b hb1 hb2 hin
          by_cases hbx : b = x + 1
          · subst hbx
            have haa : a * a < y * y := by nlinarith [hin, hDn]
            have ha1 : a < y := by nlinarith [haa, hy0]
            have ha2 : -y < a := by nlinarith [haa, hy0]
            have hm := hstep.1 a (by omega) (by omega)
            constructor
            · rw [pix_append]; exact List.mem_append_left _ hm.1
            · rw [pix_append]; exact List.mem_append_left _ hm.2
          · by_cases hby : b = y - 1
            · subst hby
              rcases lt_or_le (x + 1) a with hgt | hle1
              · have hm := ihn.2 a (Or.inl hgt) hin
                constructor
                · rw [pix_append]; exact List.mem_append_right _ hm.1
                · rw [pix_append]; exact List.mem_append_right _ hm.2
              · rcases lt_or_le a (-(x + 1)) with hlt2 | hge2
                · have hm := ihn.2 a (Or.inr hlt2) hin
                  constructor
                  · rw [pix_append]; exact List.mem_append_right _ hm.1
                  · rw [pix_append]; exact List.mem_append_right _ hm.2
                · have hm := hstep.2 a (by omega) hle1
                  constructor
                  · rw [pix_append]; exact List.mem_append_left _ hm.1
                  · rw [pix_append]; exact List.mem_append_left _ hm.2
            · have hm := ihn.1 a b (by omega) (by omega) hin
              constructor
              · rw [pix_append]; exact List.mem_append_right _ hm.1
              · rw [pix_append]; exact List.mem_append_right _ hm.2
        · intro a ha hin
          exfalso
          have haa : (x + 1) * (x + 1) ≤ a * a := by
            rcases ha with ha | ha
            · nlinarith
            · nlinarith
          nlinarith [haa, hfx, hA, hin, hxy, hx0]
      · -- no-decrement branch: the step plots row x+1 in full and extends
        -- row y to column x+1; the recursive call covers everything else.
        rw [if_neg hfx]
        push_neg at hfx
        have hPn := circP_step_inc r x y fx dFx dFy hP hxy hfx
        have hDn : r * r ≤ (x + 1) * (x + 1) + (y + 1) * (y + 1) := by
          nlinarith [hD, hx0]
        have ihn := ih (x + 1) y (fx + (dFx + 2)) (dFx + 2) dFy (by omega) hPn
        have hstep := circleStep_cover c fg bg hbg (x + 1) y (by omega) hy0
        constructor
        · intro a b hb1 hb2 hin
          by_cases hbx : b = x + 1
          · subst hbx
            have haa : a * a < (y + 1) * (y + 1) := by nlinarith [hin, hDn]
            have ha1 : a ≤ y := by nlinarith [haa, hy0]
            have ha2 : -y ≤ a := by nlinarith [haa, hy0]
            have hm := hstep.1 a ha2 ha1
            constructor
            · rw [pix_append]; exact List.mem_append_left _ hm.1
            · rw [pix_append]; exact List.mem_append_left _ hm.2
          · have hm := ihn.1 a b (by omega) hb2 hin
            constructor
            · rw [pix_append]; exact List.mem_append_right _ hm.1
            · rw [pix_append]; exact List.mem_append_right _ hm.2
        · intro a ha hin
          rcases ha with ha | ha
          · rcases eq_or_lt_of_le (show x + 1 ≤ a by omega) with heq | hgt
            · have hm := hstep.2 a (by omega) (by omega)
              constructor
              · rw [pix_append]; exact List.mem_append_left _ hm.1
              · rw [pix_append]; exact List.mem_append_left _ hm.2
            · have hm := ihn.2 a (Or.inl hgt) hin
              constructor
              · rw [pix_append]; exact List.mem_append_right _ hm.1
              · rw [pix_append]; exact List.mem_append_right _ hm.2
          · rcases eq_or_lt_of_le (show a ≤ -(x + 1) by omega) with heq | hlt
            · have hm := hstep.2 a (by omega) (by omega)
              constructor
              · rw [pix_append]; exact List.mem_append_left _ hm.1
              · rw [pix_append]; exact List.mem_append_left _ hm.2
            · have hm := ihn.2 a (Or.inr hlt) hin
              constructor
              · rw [pix_append]; exact List.mem_append_right _ hm.1
              · rw [pix_append]; exact List.mem_append_right _ hm.2

/-- Interior coverage of the full filled-circle render: every strictly
interior pixel is written. -/
theorem circleWrites_cover (c : xy) (radius : Nat) (fg bg : color)
    (hr : 1 ≤ radius) (hbg : bg ≠ transparent) :
    ∀ a b : Int, a * a + b * b < (radius : Int) * radius →
      c + ⟨a, b⟩ ∈ pix (circleWrites c radius fg bg) := by
  intro a b hin
  have hr' : (1 : Int) ≤ (radius : Int) := by exact_mod_cast hr
  unfold circleWrites
  rw [if_neg (by omega : ¬ radius < 1), if_pos hbg]
  by_cases hb0 : b = 0
  · subst hb0
    have h1 : -(radius : Int) < a := by nlinarith [hin]
    have h2 : a < (radius : Int) := by nlinarith [hin]
    simp only [xy_sub_mk, xy_add_mk, add_zero, sub_zero]
    rw [pix_append, pix_append, pix_append]
    refine List.mem_append_left _
      (List.mem_append_right _ (List.mem_append_right _ ?_))
    exact mem_pix.mpr ⟨fg, lineWrites_horizontal_mem (c.x - (radius : Int))
      (c.x + (radius : Int)) c.y (c.x + a) fg (by omega) (by omega)⟩
  · rw [pix_append]
    refine List.mem_append_right _ ?_
    have hcov := (circleLoop_cover c fg bg hbg (radius : Int) radius 0 (radius : Int)
      (1 - (radius : Int)) 1 (-2 * (radius : Int)) (by omega)
      (circP_init _ (by omega))).1
    rcases lt_or_gt_of_ne hb0 with hneg | hpos
    · have hb' : 0 < -b := by omega
      have hblt : -b < (radius : Int) := by nlinarith [hin]
      have hin' : a * a + (-b) * (-b) < (radius : Int) * (radius : Int) := by
        nlinarith [hin]
      have hm := (hcov a (-b) hb' hblt hin').2
      rw [neg_neg] at hm
      exact hm
    · have hblt : b < (radius : Int) := by nlinarith [hin]
      exact (hcov a b hpos hblt hin).1

/-! ### Claim C4 -/

/-- C4 counterexample: for the filled circle of radius 2 at the origin,
the pixel (1,2) is written although its squared distance 5 exceeds
r² = 4 — "no pixel strictly outside the circle is written at all" fails as
stated (the midpoint outline overshoots the ideal circle by up to r). -/
theorem circle_fill_outside_pixel_written :
    (⟨1, 2⟩ : xy) ∈ pix (circleWrites ⟨0, 0⟩ 2 black white) ∧
      ((2 : Int) * 2 < 1 * 1 + 2 * 2) := by
  decide

/-- C4 (amended): for every circle of radius r ≥ 1 with a non-transparent
fill, every pixel strictly inside the circle (integer squared distance
from the center less than r²) is written, every write uses the fill color
or the foreground color, and no pixel with squared distance greater than
r² + r is written (the bound r² cannot be used: outline pixels may
overshoot the ideal circle by up to r in squared distance). -/
theorem circle_fill_coverage (c : xy) (radius : Nat) (fg bg : color)
    (hr : 1 ≤ radius) (hbg : bg ≠ transparent) :
    (∀ a b : Int, a * a + b * b < (radius : Int) * radius →
        c + ⟨a, b⟩ ∈ pix (circleWrites c radius fg bg)) ∧
    (∀ a b : Int, (radius : Int) * radius + radius < a * a + b * b →
        c + ⟨a, b⟩ ∉ pix (circleWrites c radius fg bg)) ∧
    (∀ pc ∈ circleWrites c radius fg bg, pc.2 = fg ∨ pc.2 = bg) := by
  refine ⟨circleWrites_cover c radius fg bg hr hbg, ?_, ?_⟩
  · intro a b hout hmem
    obtain ⟨col, hcol⟩ := mem_pix.mp hmem
    obtain ⟨u, v, huv, hbound⟩ :=
      circleWrites_writes_bound c radius fg bg (c + ⟨a, b⟩, col) hcol
    have huv' := (xy_add_right_inj c ⟨a, b⟩ ⟨u, v⟩).mp huv
    rw [xy.mk.injEq] at huv'
    obtain ⟨h1, h2⟩ := huv'
    subst h1; subst h2
    linarith
  · intro pc hmem
    rcases circleWrites_color c radius fg bg pc hmem with h | ⟨h1, _⟩
    · exact Or.inl h
    · exact Or.inr h1

/-- C4 witness: for the filled radius-2 circle at the origin, the interior
pixel (1,1) is written and the far-outside pixel (3,3) is not. -/
theorem circle_fill_coverage_checked :
    (⟨0, 0⟩ : xy) + ⟨1, 1⟩ ∈ pix (circleWrites ⟨0, 0⟩ 2 black white) ∧
      (⟨0, 0⟩ : xy) + ⟨3, 3⟩ ∉ pix (circleWrites ⟨0, 0⟩ 2 black white) :=
  ⟨(circle_fill_coverage ⟨0, 0⟩ 2 black white (by decide) (by decide)).1 1 1
      (by decide),
   (circle_fill_coverage ⟨0, 0⟩ 2 black white (by decide) (by decide)).2.1 3 3
      (by decide)⟩

/-! ### Octant symmetry of the outline pixel set -/

theorem circleSym_append (c : xy) (fg : color) (x y : Int) (rest : List (xy × color))
    (hrest : ∀ a b : Int, c + ⟨a, b⟩ ∈ pix rest →
      c + ⟨-a, b⟩ ∈ pix rest ∧ c + ⟨a, -b⟩ ∈ pix rest ∧ c + ⟨-a, -b⟩ ∈ pix rest ∧
      c + ⟨b, a⟩ ∈ pix rest ∧ c + ⟨-b, a⟩ ∈ pix rest ∧ c + ⟨b, -a⟩ ∈ pix rest ∧
      c + ⟨-b, -a⟩ ∈ pix rest) :
    ∀ a b : Int, c + ⟨a, b⟩ ∈ pix (circleStep c fg transparent x y ++ rest) →
      c + ⟨-a, b⟩ ∈ pix (circleStep c fg transparent x y ++ rest) ∧
      c + ⟨a, -b⟩ ∈ pix (circleStep c fg transparent x y ++ rest) ∧
      c + ⟨-a, -b⟩ ∈ pix (circleStep c fg transparent x y ++ rest) ∧
      c + ⟨b, a⟩ ∈ pix (circleStep c fg transparent x y ++ rest) ∧
      c + ⟨-b, a⟩ ∈ pix (circleStep c fg transparent x y ++ rest) ∧
      c + ⟨b, -a⟩ ∈ pix (circleStep c fg transparent x y ++ rest) ∧
      c + ⟨-b, -a⟩ ∈ pix (circleStep c fg transparent x y ++ rest) := by
  have hstep8 : pix (circleStep c fg transparent x y) =
      [c + ⟨x, y⟩, c + ⟨-x, y⟩, c + ⟨x, -y⟩, c + ⟨-x, -y⟩,
       c + ⟨y, x⟩, c + ⟨-y, x⟩, c + ⟨y, -x⟩, c + ⟨-y, -x⟩] := by
    unfold circleStep
    rw [if_neg (by simp : ¬ (transparent ≠ transparent))]
    simp [pix]
  intro a b hmem
  rw [pix_append] at hmem ⊢
  rcases List.mem_append.mp hmem with hs | hr
  · rw [hstep8] at hs
    simp only [List.mem_cons, List.not_mem_nil, or_false] at hs
    have hinj : ∀ u v : Int, c + ⟨a, b⟩ = c + ⟨u, v⟩ → a = u ∧ b = v := by
      intro u v h
      have h2 := (xy_add_right_inj c ⟨a, b⟩ ⟨u, v⟩).mp h
      rwa [xy.mk.injEq] at h2
    rcases hs with h | h | h | h | h | h | h | h <;>
      obtain ⟨rfl, rfl⟩ := hinj _ _ h <;>
      refine ⟨?_, ?_, ?_, ?_, ?_, ?_, ?_⟩ <;>
      · refine List.mem_append_left _ ?_
        rw [hstep8]
        simp [neg_neg]
  · obtain ⟨m1, m2, m3, m4, m5, m6, m7⟩ := hrest a b hr
    exact ⟨List.mem_append_right _ m1, List.mem_append_right _ m2,
      List.mem_append_right _ m3, List.mem_append_right _ m4,
      List.mem_append_right _ m5, List.mem_append_right _ m6,
      List.mem_append_right _ m7⟩

theorem circleLoop_sym (c : xy) (fg : color) :
    ∀ (n : Nat) (x y fx dFx dFy : Int) (a b : Int),
      c + ⟨a, b⟩ ∈ pix (circleLoop c fg transparent n x y fx dFx dFy) →
        c + ⟨-a, b⟩ ∈ pix (circleLoop c fg transparent n x y fx dFx dFy) ∧
        c + ⟨a, -b⟩ ∈ pix (circleLoop c fg transparent n x y fx dFx dFy) ∧
        c + ⟨-a, -b⟩ ∈ pix (circleLoop c fg transparent n x y fx dFx dFy) ∧
        c + ⟨b, a⟩ ∈ pix (circleLoop c fg transparent n x y fx dFx dFy) ∧
        c + ⟨-b, a⟩ ∈ pix (circleLoop c fg transparent n x y fx dFx dFy) ∧
        c + ⟨b, -a⟩ ∈ pix (circleLoop c fg transparent n x y fx dFx dFy) ∧
        c + ⟨-b, -a⟩ ∈ pix (circleLoop c fg transparent n x y fx dFx dFy) := by
  intro n
  induction n with
  | zero =>
    intro x y fx dFx dFy a b hmem
    simp [circleLoop, pix] at hmem
  | succ n ih =>
    intro x y fx dFx dFy a b hmem
    simp only [circleLoop] at hmem ⊢
    by_cases hxy : x < y
    swap
    · rw [if_neg hxy] at hmem
      simp [pix] at hmem
    · rw [if_pos hxy] at hmem ⊢
      by_cases hfx : 0 ≤ fx
      · rw [if_pos hfx] at hmem ⊢
        exact circleSym_append c fg (x + 1) (y - 1) _
          (fun a b h => ih (x + 1) (y - 1) _ _ _ a b h) a b hmem
      · rw [if_neg hfx] at hmem ⊢
        exact circleSym_append c fg (x + 1) y _
          (fun a b h => ih (x + 1) y _ _ _ a b h) a b hmem

theorem circleWrites_sym (c : xy) (radius : Nat) (fg : color) :
    ∀ a b : Int, c + ⟨a, b⟩ ∈ pix (circleWrites c radius fg transparent) →
      c + ⟨-a, b⟩ ∈ pix (circleWrites c radius fg transparent) ∧
      c + ⟨a, -b⟩ ∈ pix (circleWrites c radius fg transparent) ∧
      c + ⟨-a, -b⟩ ∈ pix (circleWrites c radius fg transparent) ∧
      c + ⟨b, a⟩ ∈ pix (circleWrites c radius fg transparent) ∧
      c + ⟨-b, a⟩ ∈ pix (circleWrites c radius fg transparent) ∧
      c + ⟨b, -a⟩ ∈ pix (circleWrites c radius fg transparent) ∧
      c + ⟨-b, -a⟩ ∈ pix (circleWrites c radius fg transparent) := by
  intro a b hmem
  unfold circleWrites at hmem ⊢
  by_cases hr : radius < 1
  · rw [if_pos hr] at hmem
    simp [pix] at hmem
  · rw [if_neg hr] at hmem ⊢
    rw [if_neg (by simp : ¬ (transparent ≠ transparent))] at hmem ⊢
    rw [List.append_nil] at hmem ⊢
    rw [pix_append] at hmem ⊢
    have hfour : pix [(c + ⟨0, (radius : Int)⟩, fg), (c + ⟨0, -(radius : Int)⟩, fg),
        (c + ⟨(radius : Int), 0⟩, fg), (c + ⟨-(radius : Int), 0⟩, fg)] =
        [c + ⟨0, (radius : Int)⟩, c + ⟨0, -(radius : Int)⟩,
         c + ⟨(radius : Int), 0⟩, c + ⟨-(radius : Int), 0⟩] := by
      simp [pix]
    rcases List.mem_append.mp hmem with h4 | hloop
    · rw [hfour] at h4
      simp only [List.mem_cons, List.not_mem_nil, or_false] at h4
      have hinj : ∀ u v : Int, c + ⟨a, b⟩ = c + ⟨u, v⟩ → a = u ∧ b = v := by
        intro u v h
        have h2 := (xy_add_right_inj c ⟨a, b⟩ ⟨u, v⟩).mp h
        rwa [xy.mk.injEq] at h2
      rcases h4 with h | h | h | h <;>
        obtain ⟨rfl, rfl⟩ := hinj _ _ h <;>
        refine ⟨?_, ?_, ?_, ?_, ?_, ?_, ?_⟩ <;>
        · refine List.mem_append_left _ ?_
          rw [hfour]
          simp [neg_neg, neg_zero]
    · obtain ⟨m1, m2, m3, m4, m5, m6, m7⟩ :=
        circleLoop_sym c fg radius 0 (radius : Int) (1 - (radius : Int)) 1
          (-2 * (radius : Int)) a b hloop
      exact ⟨List.mem_append_right _ m1, List.mem_append_right _ m2,
        List.mem_append_right _ m3, List.mem_append_right _ m4,
        List.mem_append_right _ m5, List.mem_append_right _ m6,
        List.mem_append_right _ m7⟩

/-! ### Claim C7 -/

/-- C7: for every center, radius r ≥ 1 and transparent fill, the outline
pixel set is closed under reflection across the horizontal and vertical
axes through the center and under swapping the x and y offsets: whenever
center + (a, b) is written, so are center + (±a, ±b) and center + (±b, ±a). -/
theorem circle_outline_symmetry (c : xy) (radius : Nat) (fg : color)
    (hr : 1 ≤ radius) :
    ∀ a b : Int, c + ⟨a, b⟩ ∈ pix (circleWrites c radius fg transparent) →
      c + ⟨-a, b⟩ ∈ pix (circleWrites c radius fg transparent) ∧
      c + ⟨a, -b⟩ ∈ pix (circleWrites c radius fg transparent) ∧
      c + ⟨-a, -b⟩ ∈ pix (circleWrites c radius fg transparent) ∧
      c + ⟨b, a⟩ ∈ pix (circleWrites c radius fg transparent) ∧
      c + ⟨-b, a⟩ ∈ pix (circleWrites c radius fg transparent) ∧
      c + ⟨b, -a⟩ ∈ pix (circleWrites c radius fg transparent) ∧
      c + ⟨-b, -a⟩ ∈ pix (circleWrites c radius fg transparent) :=
  fun a b hmem => circleWrites_sym c radius fg a b hmem

/-- C7 witness: the radius-2 outline contains (1,2); the symmetry theorem
yields the seven mirrored pixels. -/
theorem circle_outline_symmetry_checked :
    (⟨0, 0⟩ : xy) + ⟨-1, 2⟩ ∈ pix (circleWrites ⟨0, 0⟩ 2 black transparent) ∧
    (⟨0, 0⟩ : xy) + ⟨1, -2⟩ ∈ pix (circleWrites ⟨0, 0⟩ 2 black transparent) ∧
    (⟨0, 0⟩ : xy) + ⟨-1, -2⟩ ∈ pix (circleWrites ⟨0, 0⟩ 2 black transparent) ∧
    (⟨0, 0⟩ : xy) + ⟨2, 1⟩ ∈ pix (circleWrites ⟨0, 0⟩ 2 black transparent) ∧
    (⟨0, 0⟩ : xy) + ⟨-2, 1⟩ ∈ pix (circleWrites ⟨0, 0⟩ 2 black transparent) ∧
    (⟨0, 0⟩ : xy) + ⟨2, -1⟩ ∈ pix (circleWrites ⟨0, 0⟩ 2 black transparent) ∧
    (⟨0, 0⟩ : xy) + ⟨-2, -1⟩ ∈ pix (circleWrites ⟨0, 0⟩ 2 black transparent) :=
  circle_outline_symmetry ⟨0, 0⟩ 2 black (by decide) 1 2 (by decide)

/-! ### Claim C9 -/

/-- C9 counterexample: no linear bound exists for circle write counts —
there is no constant K with every circle render performing at most
K * (radius + 1) sink writes.  With a non-transparent fill every
octant-loop iteration redraws four full-width chords, so the write count
grows quadratically in the radius; instantiating radius = 2K + 2 refutes
any candidate K. -/
theorem circle_write_count_not_linear :
    ¬ ∃ K : Nat, ∀ (c : xy) (radius : Nat) (fg bg : color),
        (circleWrites c radius fg bg).length ≤ K * (radius + 1) := by
  rintro ⟨K, hK⟩
  have hlb := circleWrites_fill_length_lb ⟨0, 0⟩ (2 * K + 2) black white
    (by decide) (by omega)
  have hub := hK ⟨0, 0⟩ (2 * K + 2) black white
  have hdiv : ((2 * K + 2) + 1) / 2 = K + 1 := by omega
  rw [hdiv] at hlb
  nlinarith [hlb, hub]

/-- C9 (amended): every render terminates, producing a finite write list
whose length is exactly max(|Dx|, |Dy|) for a line, at most 4 + 8·radius
for an outline-only circle, and at most quadratic in the radius
(6 + 2·radius + radius·(8 + 8·radius)) for any circle — but for filled
circles the count is not proportional to the radius (see the
counterexample), only to the number of pixels plotted. -/
theorem render_write_counts :
    (∀ (p q : xy) (fg : color),
        (lineWrites p q fg).length = max (q.x - p.x).natAbs (q.y - p.y).natAbs) ∧
    (∀ (c : xy) (radius : Nat) (fg : color),
        (circleWrites c radius fg transparent).length ≤ 4 + 8 * radius) ∧
    (∀ (c : xy) (radius : Nat) (fg bg : color),
        (circleWrites c radius fg bg).length ≤
          6 + 2 * radius + radius * (8 + 8 * radius)) :=
  ⟨lineWrites_length, circleWrites_length_transparent, circleWrites_length_ub⟩

end hwlib
